import Mathlib

/-!
# Verification of the arbitrage matching engine

Shallow embedding of `src/arbitrage.cpp`. The C++ code represents order books
as `std::unordered_map<std::string, Entry>`; iteration order over such a map is
unspecified, so we embed a book as a `List Entry` — the list order is the
enumeration order of one run. Prices and fees (`double` in the source) are
embedded as exact rationals `ℚ`; volumes (`long`) as `Int`. The unbounded
`while (true)` loop of `find_best_arbitrage` is embedded with explicit fuel:
`arbLoop fuel` returns `none` when the fuel runs out before the loop reaches
its exit condition, and `some (bids', asks', trades)` when the loop exits
normally, carrying the mutated books and the accumulated trade list.
-/

namespace Arbitrage

/-- Embeds `struct Entry`: a bid or ask entry in an orderbook. -/
structure Entry where
  exchange : String
  fee : ℚ
  price : ℚ
  volume : Int
deriving DecidableEq, Repr

/-- Embeds `struct Trade`: an executed arbitrage trade. -/
structure Trade where
  buy_exchange : String
  sell_exchange : String
  buy_fee : ℚ
  sell_fee : ℚ
  buy_price : ℚ
  sell_price : ℚ
  volume : Int
  profit_per_unit : ℚ
  net_profit : ℚ
deriving DecidableEq, Repr

/-- `effective_cost = ask.price * (1.0 + ask.fee)` from the selection scan. -/
def effective_cost (ask : Entry) : ℚ := ask.price * (1 + ask.fee)

/-- `effective_proceed = bid.price * (1.0 - bid.fee)` from the selection scan. -/
def effective_proceed (bid : Entry) : ℚ := bid.price * (1 - bid.fee)

/-- `profit_per_unit = effective_proceed - effective_cost` from the selection scan. -/
def profit_per_unit (ask bid : Entry) : ℚ := effective_proceed bid - effective_cost ask

/-- The `best_trade` record built in the selection scan:
`{ask.exchange, bid.exchange, ask.fee, bid.fee, ask.price, bid.price,
  trade_qty, profit_per_unit, net_profit}` with `trade_qty = min(ask.volume,
  bid.volume)` and `net_profit = profit_per_unit * trade_qty`. -/
def mkTrade (ask bid : Entry) : Trade :=
  { buy_exchange := ask.exchange
    sell_exchange := bid.exchange
    buy_fee := ask.fee
    sell_fee := bid.fee
    buy_price := ask.price
    sell_price := bid.price
    volume := min ask.volume bid.volume
    profit_per_unit := profit_per_unit ask bid
    net_profit := profit_per_unit ask bid * ((min ask.volume bid.volume : Int) : ℚ) }

/-- The (venue, fee, price) identity tuple of a book entry; `update_volume`
re-locates entries by this tuple. -/
def keyOf (e : Entry) : String × ℚ × ℚ := (e.exchange, e.fee, e.price)

/-- The buy-side identity tuple recorded in a trade. -/
def buyKey (t : Trade) : String × ℚ × ℚ := (t.buy_exchange, t.buy_fee, t.buy_price)

/-- The sell-side identity tuple recorded in a trade. -/
def sellKey (t : Trade) : String × ℚ × ℚ := (t.sell_exchange, t.sell_fee, t.sell_price)

/-- One selection scan of `find_best_arbitrage`: the nested loops over `asks`
(outer) and `bids` (inner), starting from `best_trade = nullopt`,
`best_profit_per_unit = 0.0`, skipping exhausted entries and same-exchange
pairs, and adopting a candidate exactly when its `profit_per_unit` strictly
exceeds the best seen so far. Returns the pair
(`best_trade`, `best_profit_per_unit`). -/
def selectBest (bids asks : List Entry) : Option Trade × ℚ :=
  asks.foldl
    (fun acc ask =>
      if ask.volume ≤ 0 then acc
      else
        bids.foldl
          (fun acc2 bid =>
            if bid.volume ≤ 0 then acc2
            else if ask.exchange = bid.exchange then acc2
            else if acc2.2 < profit_per_unit ask bid then
              (some (mkTrade ask bid), profit_per_unit ask bid)
            else acc2)
          acc)
    (none, 0)

/-- Embeds the `update_volume` lambda: walk the book, decrement the volume of
the FIRST entry whose (exchange, fee, price) tuple matches, then `break`. -/
def update_volume (book : List Entry) (exchange : String) (fee price : ℚ)
    (trade_qty : Int) : List Entry :=
  match book with
  | [] => []
  | e :: rest =>
    if e.exchange = exchange ∧ e.fee = fee ∧ e.price = price then
      { e with volume := e.volume - trade_qty } :: rest
    else
      e :: update_volume rest exchange fee price trade_qty

/-- One iteration of the main `while (true)` loop: run the selection scan; if
no profitable trade was found return `none` (the loop breaks), otherwise apply
`update_volume` to both books (asks on the trade's buy side, bids on its sell
side) and return the new books together with the recorded trade. -/
def stepArb (bids asks : List Entry) : Option (List Entry × List Entry × Trade) :=
  match (selectBest bids asks).1 with
  | none => none
  | some t =>
    some (update_volume bids t.sell_exchange t.sell_fee t.sell_price t.volume,
          update_volume asks t.buy_exchange t.buy_fee t.buy_price t.volume,
          t)

/-- The main loop with explicit fuel. `some (bids', asks', trades)` means the
C++ loop exits (no profitable trade remains) after at most `fuel` executed
trades; `none` means the fuel was exhausted while profitable trades remained. -/
def arbLoop : Nat → List Entry → List Entry →
    Option (List Entry × List Entry × List Trade)
  | 0, bids, asks =>
    match stepArb bids asks with
    | none => some (bids, asks, [])
    | some _ => none
  | fuel + 1, bids, asks =>
    match stepArb bids asks with
    | none => some (bids, asks, [])
    | some (bids', asks', t) =>
      (arbLoop fuel bids' asks').map (fun r => (r.1, r.2.1, t :: r.2.2))

/-- Total volume of a book, counting only the positive part of each entry. -/
def volNat (book : List Entry) : Nat := (book.map (fun e => e.volume.toNat)).sum

/-- Total volume across both collections. -/
def totalVol (bids asks : List Entry) : Nat := volNat bids + volNat asks

/-- Embeds `find_best_arbitrage(bids, asks)`. The C++ loop is unbounded; we
run it with fuel equal to the total initial volume, which is proved sufficient
whenever the (venue, fee, price) tuples are unique within each book
(`arbLoop` reaches the loop's exit condition and returns `some`). -/
def find_best_arbitrage (bids asks : List Entry) :
    Option (List Entry × List Entry × List Trade) :=
  arbLoop (totalVol bids asks) bids asks

/-- The candidate pairs of one selection scan, in enumeration order: asks
outer, bids inner, keeping exactly the pairs the scan does not skip
(positive volumes on both sides and distinct exchanges). -/
def candPairs (bids asks : List Entry) : List (Entry × Entry) :=
  (asks.filter (fun a => decide (0 < a.volume))).flatMap
    (fun a =>
      (bids.filter (fun b => decide (0 < b.volume ∧ a.exchange ≠ b.exchange))).map
        (fun b => (a, b)))

/-- The body of the selection scan, expressed on a candidate pair. -/
def consider (acc : Option Trade × ℚ) (p : Entry × Entry) : Option Trade × ℚ :=
  if acc.2 < profit_per_unit p.1 p.2 then
    (some (mkTrade p.1 p.2), profit_per_unit p.1 p.2)
  else acc

/-- Profit per unit of a candidate pair. -/
def ppuP (p : Entry × Entry) : ℚ := profit_per_unit p.1 p.2

/-! ## The selection scan as a fold over the candidate-pair list -/

theorem inner_foldl_eq (ask : Entry) (bids : List Entry) (acc : Option Trade × ℚ) :
    bids.foldl
      (fun acc2 bid =>
        if bid.volume ≤ 0 then acc2
        else if ask.exchange = bid.exchange then acc2
        else if acc2.2 < profit_per_unit ask bid then
          (some (mkTrade ask bid), profit_per_unit ask bid)
        else acc2)
      acc =
    ((bids.filter (fun b => decide (0 < b.volume ∧ ask.exchange ≠ b.exchange))).map
      (fun b => (ask, b))).foldl consider acc := by
  induction bids generalizing acc with
  | nil => rfl
  | cons b bs ih =>
    rw [List.foldl_cons, List.filter_cons]
    by_cases h1 : b.volume ≤ 0
    · have hp : ¬ (0 < b.volume ∧ ask.exchange ≠ b.exchange) := by
        rintro ⟨h, -⟩; omega
      rw [if_pos h1, decide_eq_false hp, if_neg Bool.false_ne_true, ih]
    · by_cases h2 : ask.exchange = b.exchange
      · have hp : ¬ (0 < b.volume ∧ ask.exchange ≠ b.exchange) := by
          rintro ⟨-, h⟩; exact h h2
        rw [if_neg h1, if_pos h2, decide_eq_false hp, if_neg Bool.false_ne_true, ih]
      · have hp : (0 < b.volume ∧ ask.exchange ≠ b.exchange) := ⟨by omega, h2⟩
        rw [if_neg h1, if_neg h2, decide_eq_true hp, if_pos rfl, List.map_cons,
          List.foldl_cons, ih]
        rfl

theorem selectBest_eq (bids asks : List Entry) :
    selectBest bids asks = (candPairs bids asks).foldl consider (none, 0) := by
  unfold selectBest candPairs
  generalize (none, (0 : ℚ)) = init
  induction asks generalizing init with
  | nil => rfl
  | cons a as ih =>
    rw [List.foldl_cons, List.filter_cons]
    by_cases h1 : a.volume ≤ 0
    · have hp : ¬ (0 < a.volume) := by omega
      rw [if_pos h1, decide_eq_false hp, if_neg Bool.false_ne_true, ih]
    · have hp : (0 < a.volume) := by omega
      rw [if_neg h1, decide_eq_true hp, if_pos rfl, List.flatMap_cons,
        List.foldl_append, inner_foldl_eq, ih]

theorem mem_candPairs {bids asks : List Entry} {p : Entry × Entry} :
    p ∈ candPairs bids asks ↔
      p.1 ∈ asks ∧ p.2 ∈ bids ∧ 0 < p.1.volume ∧ 0 < p.2.volume ∧
        p.1.exchange ≠ p.2.exchange := by
  obtain ⟨a, b⟩ := p
  simp only [candPairs, List.mem_flatMap, List.mem_map, List.mem_filter,
    decide_eq_true_eq, Prod.mk.injEq]
  constructor
  · rintro ⟨x, ⟨hx, hxv⟩, y, ⟨hy, hyv, hyx⟩, rfl, rfl⟩
    exact ⟨hx, hy, hxv, hyv, hyx⟩
  · rintro ⟨ha, hb, hav, hbv, hne⟩
    exact ⟨a, ⟨ha, hav⟩, b, ⟨hb, hbv, hne⟩, rfl, rfl⟩

/-- First-max characterization of the selection fold: either no candidate has
positive profit and the accumulator stays `(none, 0)`, or the result is the
first candidate attaining the maximum profit — strictly above everything
before it, at or above everything after it. -/
theorem consider_foldl_spec (l : List (Entry × Entry)) :
    (l.foldl consider (none, 0) = (none, 0) ∧ ∀ q ∈ l, ppuP q ≤ 0) ∨
    (∃ l1 p l2, l.foldl consider (none, 0) = (some (mkTrade p.1 p.2), ppuP p) ∧
      l = l1 ++ p :: l2 ∧ 0 < ppuP p ∧
      (∀ q ∈ l1, ppuP q < ppuP p) ∧ (∀ q ∈ l2, ppuP q ≤ ppuP p)) := by
  induction l using List.reverseRecOn with
  | nil => exact Or.inl ⟨rfl, by simp⟩
  | append_singleton l p ih =>
    rw [List.foldl_append, List.foldl_cons, List.foldl_nil]
    rcases ih with ⟨heq, hall⟩ | ⟨l1, q, l2, heq, hsplit, hpos, h1, h2⟩
    · rw [heq]
      by_cases h : (0 : ℚ) < ppuP p
      · refine Or.inr ⟨l, p, [], ?_, by simp, h, ?_, by simp⟩
        · simp only [consider, ppuP] at h ⊢
          rw [if_pos h]
        · exact fun q hq => lt_of_le_of_lt (hall q hq) h
      · refine Or.inl ⟨?_, ?_⟩
        · simp only [consider, ppuP] at h ⊢
          rw [if_neg h]
        · intro q hq
          rcases List.mem_append.1 hq with hq | hq
          · exact hall q hq
          · simp only [List.mem_singleton] at hq
            subst hq; exact le_of_not_lt h
    · rw [heq]
      by_cases h : ppuP q < ppuP p
      · refine Or.inr ⟨l, p, [], ?_, by simp, lt_trans hpos h, ?_, by simp⟩
        · simp only [consider, ppuP] at h ⊢
          rw [if_pos h]
        · intro r hr
          rw [hsplit] at hr
          rcases List.mem_append.1 hr with hr | hr
          · exact lt_trans (h1 r hr) h
          · rcases List.mem_cons.1 hr with hr | hr
            · subst hr; exact h
            · exact lt_of_le_of_lt (h2 r hr) h
      · refine Or.inr ⟨l1, q, l2 ++ [p], ?_, by rw [hsplit]; simp, hpos, h1, ?_⟩
        · simp only [consider, ppuP] at h ⊢
          rw [if_neg h]
        · intro r hr
          rcases List.mem_append.1 hr with hr | hr
          · exact h2 r hr
          · simp only [List.mem_singleton] at hr
            subst hr; exact le_of_not_lt h

/-! ## Basic facts about built trades and the selection result -/

@[simp] theorem mkTrade_buy_exchange (a b : Entry) : (mkTrade a b).buy_exchange = a.exchange := rfl

@[simp] theorem mkTrade_sell_exchange (a b : Entry) : (mkTrade a b).sell_exchange = b.exchange := rfl

@[simp] theorem mkTrade_buy_fee (a b : Entry) : (mkTrade a b).buy_fee = a.fee := rfl

@[simp] theorem mkTrade_sell_fee (a b : Entry) : (mkTrade a b).sell_fee = b.fee := rfl

@[simp] theorem mkTrade_buy_price (a b : Entry) : (mkTrade a b).buy_price = a.price := rfl

@[simp] theorem mkTrade_sell_price (a b : Entry) : (mkTrade a b).sell_price = b.price := rfl

@[simp] theorem mkTrade_volume (a b : Entry) : (mkTrade a b).volume = min a.volume b.volume := rfl

@[simp] theorem mkTrade_ppu (a b : Entry) : (mkTrade a b).profit_per_unit = profit_per_unit a b := rfl

@[simp] theorem mkTrade_net (a b : Entry) :
    (mkTrade a b).net_profit = profit_per_unit a b * ((min a.volume b.volume : Int) : ℚ) := rfl

theorem mkTrade_buyKey (a b : Entry) : buyKey (mkTrade a b) = keyOf a := rfl

theorem mkTrade_sellKey (a b : Entry) : sellKey (mkTrade a b) = keyOf b := rfl

/-- Soundness of the selection scan: a returned `best_trade` is built from a
candidate pair with strictly positive profit, maximal among all candidates. -/
theorem selectBest_some {bids asks : List Entry} {t : Trade}
    (h : (selectBest bids asks).1 = some t) :
    ∃ p ∈ candPairs bids asks, t = mkTrade p.1 p.2 ∧ 0 < ppuP p ∧
      ∀ q ∈ candPairs bids asks, ppuP q ≤ ppuP p := by
  rw [selectBest_eq] at h
  rcases consider_foldl_spec (candPairs bids asks) with ⟨heq, -⟩ |
    ⟨l1, p, l2, heq, hsplit, hpos, h1, h2⟩
  · rw [heq] at h; cases h
  · rw [heq] at h
    obtain rfl : mkTrade p.1 p.2 = t := by injection h
    refine ⟨p, by rw [hsplit]; exact List.mem_append_right _ (List.mem_cons_self _ _),
      rfl, hpos, ?_⟩
    intro q hq
    rw [hsplit] at hq
    rcases List.mem_append.1 hq with hq | hq
    · exact le_of_lt (h1 q hq)
    · rcases List.mem_cons.1 hq with rfl | hq
      · exact le_refl _
      · exact h2 q hq

/-- If no candidate pair is profitable, the scan finds nothing and the tracked
best profit stays `0`. -/
theorem selectBest_none_of_no_profit {bids asks : List Entry}
    (h : ∀ q ∈ candPairs bids asks, ppuP q ≤ 0) :
    selectBest bids asks = (none, 0) := by
  rw [selectBest_eq]
  rcases consider_foldl_spec (candPairs bids asks) with ⟨heq, -⟩ |
    ⟨l1, p, l2, heq, hsplit, hpos, -, -⟩
  · exact heq
  · exfalso
    have : p ∈ candPairs bids asks := by
      rw [hsplit]; exact List.mem_append_right _ (List.mem_cons_self _ _)
    exact absurd (h p this) (not_le.2 hpos)

/-- Unfolding of a successful loop iteration. -/
theorem step_some_spec {bids asks b' a' : List Entry} {t : Trade}
    (h : stepArb bids asks = some (b', a', t)) :
    b' = update_volume bids t.sell_exchange t.sell_fee t.sell_price t.volume ∧
    a' = update_volume asks t.buy_exchange t.buy_fee t.buy_price t.volume ∧
    ∃ p ∈ candPairs bids asks, t = mkTrade p.1 p.2 ∧ 0 < ppuP p ∧
      ∀ q ∈ candPairs bids asks, ppuP q ≤ ppuP p := by
  unfold stepArb at h
  cases hsel : (selectBest bids asks).1 with
  | none => rw [hsel] at h; cases h
  | some t0 =>
    rw [hsel] at h
    obtain ⟨rfl, rfl, rfl⟩ : b' = _ ∧ a' = _ ∧ t0 = t := by
      injection h with h; injection h with h1 h; injection h with h2 h3
      exact ⟨h1.symm, h2.symm, h3⟩
    exact ⟨rfl, rfl, selectBest_some hsel⟩

/-- The chosen candidate pair of a successful iteration: both entries are live
members of their books, on distinct exchanges. -/
theorem step_pair_facts {bids asks : List Entry} {p : Entry × Entry}
    (hp : p ∈ candPairs bids asks) :
    p.1 ∈ asks ∧ p.2 ∈ bids ∧ 0 < p.1.volume ∧ 0 < p.2.volume ∧
      p.1.exchange ≠ p.2.exchange := mem_candPairs.1 hp

/-- Every trade in a completed run is produced by some loop iteration. -/
theorem arbLoop_trades_step {fuel : Nat} {bids asks : List Entry}
    {r : List Entry × List Entry × List Trade}
    (h : arbLoop fuel bids asks = some r) :
    ∀ t ∈ r.2.2, ∃ b a b' a', stepArb b a = some (b', a', t) := by
  induction fuel generalizing bids asks r with
  | zero =>
    cases hs : stepArb bids asks with
    | none =>
      simp only [arbLoop, hs] at h
      obtain rfl : (bids, asks, ([] : List Trade)) = r := by injection h
      simp
    | some s =>
      simp only [arbLoop, hs] at h
      cases h
  | succ fuel ih =>
    cases hs : stepArb bids asks with
    | none =>
      simp only [arbLoop, hs] at h
      obtain rfl : (bids, asks, ([] : List Trade)) = r := by injection h
      simp
    | some s =>
      obtain ⟨b', a', t0⟩ := s
      simp only [arbLoop, hs, Option.map_eq_some'] at h
      obtain ⟨x, hx, rfl⟩ := h
      intro t ht
      rcases List.mem_cons.1 ht with rfl | ht
      · exact ⟨bids, asks, b', a', hs⟩
      · exact ih hx t ht

/-! ## Properties of `update_volume` -/

theorem keyOf_eq_iff {e : Entry} {x : String} {f p : ℚ} :
    keyOf e = (x, f, p) ↔ e.exchange = x ∧ e.fee = f ∧ e.price = p := by
  simp [keyOf, Prod.ext_iff]

theorem update_volume_map_keyOf (book : List Entry) (x : String) (f p : ℚ) (q : Int) :
    (update_volume book x f p q).map keyOf = book.map keyOf := by
  induction book with
  | nil => rfl
  | cons e rest ih =>
    unfold update_volume
    by_cases h : e.exchange = x ∧ e.fee = f ∧ e.price = p
    · rw [if_pos h]; rfl
    · rw [if_neg h, List.map_cons, List.map_cons, ih]

theorem update_volume_length (book : List Entry) (x : String) (f p : ℚ) (q : Int) :
    (update_volume book x f p q).length = book.length := by
  have h := congrArg List.length (update_volume_map_keyOf book x f p q)
  simpa using h

/-- The key-conditional decrement; under unique identity tuples,
`update_volume` is this map applied pointwise. -/
def decEntry (k : String × ℚ × ℚ) (q : Int) (e : Entry) : Entry :=
  if keyOf e = k then { e with volume := e.volume - q } else e

@[simp] theorem keyOf_decEntry (k : String × ℚ × ℚ) (q : Int) (e : Entry) :
    keyOf (decEntry k q e) = keyOf e := by
  unfold decEntry
  by_cases h : keyOf e = k
  · rw [if_pos h]; rfl
  · rw [if_neg h]

theorem map_eq_self_of_mem {α : Type} {l : List α} {f : α → α}
    (h : ∀ a ∈ l, f a = a) : l.map f = l := by
  induction l with
  | nil => rfl
  | cons e rest ih =>
    rw [List.map_cons, h e (List.mem_cons_self _ _),
      ih (fun a ha => h a (List.mem_cons_of_mem _ ha))]

theorem update_volume_eq_map {book : List Entry} {x : String} {f p : ℚ} {q : Int}
    (h : (book.map keyOf).Nodup) :
    update_volume book x f p q = book.map (decEntry (x, f, p) q) := by
  induction book with
  | nil => rfl
  | cons e rest ih =>
    rw [List.map_cons] at h
    have h1 : keyOf e ∉ rest.map keyOf := (List.nodup_cons.1 h).1
    have h2 : (rest.map keyOf).Nodup := (List.nodup_cons.1 h).2
    unfold update_volume
    by_cases hk : e.exchange = x ∧ e.fee = f ∧ e.price = p
    · have hke : keyOf e = (x, f, p) := keyOf_eq_iff.2 hk
      rw [if_pos hk, List.map_cons]
      have hhd : decEntry (x, f, p) q e = { e with volume := e.volume - q } := by
        unfold decEntry; rw [if_pos hke]
      rw [hhd]
      have htl : rest.map (decEntry (x, f, p) q) = rest := by
        apply map_eq_self_of_mem
        intro e' he'
        unfold decEntry
        rw [if_neg]
        intro hcon
        exact h1 (List.mem_map.2 ⟨e', he', by rw [hcon, hke]⟩)
      rw [htl]
    · have hke : keyOf e ≠ (x, f, p) := fun hc => hk (keyOf_eq_iff.1 hc)
      rw [if_neg hk, List.map_cons, ih h2]
      have hhd : decEntry (x, f, p) q e = e := by unfold decEntry; rw [if_neg hke]
      rw [hhd]

/-! ## Frame relation: keys immutable, volumes only decrease -/

/-- Positional frame relation between an entry before and after mutation:
the identity tuple is unchanged and the volume has not increased. -/
def frameRel (old new : Entry) : Prop := keyOf new = keyOf old ∧ new.volume ≤ old.volume

theorem forall₂_frameRel_refl (l : List Entry) : List.Forall₂ frameRel l l := by
  induction l with
  | nil => exact List.Forall₂.nil
  | cons e rest ih => exact List.Forall₂.cons ⟨rfl, le_refl _⟩ ih

theorem forall₂_frameRel_trans {a b c : List Entry}
    (h1 : List.Forall₂ frameRel a b) (h2 : List.Forall₂ frameRel b c) :
    List.Forall₂ frameRel a c := by
  induction h1 generalizing c with
  | nil => cases h2; exact List.Forall₂.nil
  | cons hab hrest ih =>
    cases h2 with
    | cons hbc hrest2 =>
      exact List.Forall₂.cons ⟨hbc.1.trans hab.1, le_trans hbc.2 hab.2⟩ (ih hrest2)

theorem update_volume_frame (book : List Entry) (x : String) (f p : ℚ) {q : Int}
    (hq : 0 ≤ q) : List.Forall₂ frameRel book (update_volume book x f p q) := by
  induction book with
  | nil => exact List.Forall₂.nil
  | cons e rest ih =>
    unfold update_volume
    by_cases h : e.exchange = x ∧ e.fee = f ∧ e.price = p
    · rw [if_pos h]
      exact List.Forall₂.cons ⟨rfl, show e.volume - q ≤ e.volume by omega⟩
        (forall₂_frameRel_refl rest)
    · rw [if_neg h]
      exact List.Forall₂.cons ⟨rfl, le_refl _⟩ ih

/-- A successful iteration respects the frame relation on both books, and the
recorded trade is profitable, of quantity at least one, cross-exchange, with
the arithmetic the selection scan computes. -/
theorem step_trade_facts {bids asks b' a' : List Entry} {t : Trade}
    (h : stepArb bids asks = some (b', a', t)) :
    0 < t.profit_per_unit ∧ 1 ≤ t.volume ∧ t.buy_exchange ≠ t.sell_exchange ∧
      t.profit_per_unit = t.sell_price * (1 - t.sell_fee) - t.buy_price * (1 + t.buy_fee) ∧
      t.net_profit = t.profit_per_unit * (t.volume : ℚ) := by
  obtain ⟨-, -, p, hp, rfl, hpos, -⟩ := step_some_spec h
  obtain ⟨-, -, hv1, hv2, hne⟩ := step_pair_facts hp
  refine ⟨hpos, by simp; omega, by simpa using hne, ?_, rfl⟩
  simp [ppuP, profit_per_unit, effective_cost, effective_proceed]

theorem step_frame {bids asks b' a' : List Entry} {t : Trade}
    (h : stepArb bids asks = some (b', a', t)) :
    List.Forall₂ frameRel bids b' ∧ List.Forall₂ frameRel asks a' := by
  obtain ⟨hb, ha, -⟩ := step_some_spec h
  have hq : (0 : Int) ≤ t.volume := le_trans (by omega) (step_trade_facts h).2.1
  exact ⟨hb ▸ update_volume_frame bids _ _ _ hq, ha ▸ update_volume_frame asks _ _ _ hq⟩

/-- The whole loop respects the frame relation on both books. -/
theorem arbLoop_frame {fuel : Nat} {bids asks : List Entry}
    {r : List Entry × List Entry × List Trade}
    (h : arbLoop fuel bids asks = some r) :
    List.Forall₂ frameRel bids r.1 ∧ List.Forall₂ frameRel asks r.2.1 := by
  induction fuel generalizing bids asks r with
  | zero =>
    cases hs : stepArb bids asks with
    | none =>
      simp only [arbLoop, hs] at h
      obtain rfl : (bids, asks, ([] : List Trade)) = r := by injection h
      exact ⟨forall₂_frameRel_refl bids, forall₂_frameRel_refl asks⟩
    | some s =>
      simp only [arbLoop, hs] at h
      cases h
  | succ fuel ih =>
    cases hs : stepArb bids asks with
    | none =>
      simp only [arbLoop, hs] at h
      obtain rfl : (bids, asks, ([] : List Trade)) = r := by injection h
      exact ⟨forall₂_frameRel_refl bids, forall₂_frameRel_refl asks⟩
    | some s =>
      obtain ⟨b', a', t0⟩ := s
      simp only [arbLoop, hs, Option.map_eq_some'] at h
      obtain ⟨x, hx, rfl⟩ := h
      obtain ⟨hf1, hf2⟩ := step_frame hs
      obtain ⟨hg1, hg2⟩ := ih hx
      exact ⟨forall₂_frameRel_trans hf1 hg1, forall₂_frameRel_trans hf2 hg2⟩

/-! ## One iteration under unique identity tuples -/

/-- Under unique (venue, fee, price) tuples, a successful iteration rewrites
both books by the pointwise key-conditional decrement. -/
theorem step_nodup_spec {bids asks b' a' : List Entry} {t : Trade}
    (hnb : (bids.map keyOf).Nodup) (hna : (asks.map keyOf).Nodup)
    (h : stepArb bids asks = some (b', a', t)) :
    b' = bids.map (decEntry (sellKey t) t.volume) ∧
    a' = asks.map (decEntry (buyKey t) t.volume) ∧
    ∃ p ∈ candPairs bids asks, t = mkTrade p.1 p.2 := by
  obtain ⟨hb, ha, p, hp, ht, -, -⟩ := step_some_spec h
  exact ⟨hb.trans (update_volume_eq_map hnb), ha.trans (update_volume_eq_map hna),
    p, hp, ht⟩

theorem volNat_append (a b : List Entry) : volNat (a ++ b) = volNat a + volNat b := by
  simp [volNat]

theorem volNat_cons (e : Entry) (l : List Entry) :
    volNat (e :: l) = e.volume.toNat + volNat l := by
  simp [volNat]

theorem volNat_map_dec_le (book : List Entry) (k : String × ℚ × ℚ) {q : Int}
    (hq : 0 ≤ q) : volNat (book.map (decEntry k q)) ≤ volNat book := by
  unfold volNat
  rw [List.map_map]
  apply List.sum_le_sum
  intro e he
  simp only [Function.comp_apply]
  unfold decEntry
  by_cases h : keyOf e = k
  · rw [if_pos h]
    simp only
    omega
  · rw [if_neg h]

theorem volNat_map_dec_lt {book : List Entry} {k : String × ℚ × ℚ} {q : Int}
    {e0 : Entry} (he0 : e0 ∈ book) (hk : keyOf e0 = k) (hq1 : 1 ≤ q)
    (hqv : q ≤ e0.volume) :
    volNat (book.map (decEntry k q)) < volNat book := by
  obtain ⟨l1, l2, rfl⟩ := List.append_of_mem he0
  rw [List.map_append, List.map_cons, volNat_append, volNat_append, volNat_cons,
    volNat_cons]
  have h1 : volNat (l1.map (decEntry k q)) ≤ volNat l1 :=
    volNat_map_dec_le l1 k (by omega)
  have h2 : volNat (l2.map (decEntry k q)) ≤ volNat l2 :=
    volNat_map_dec_le l2 k (by omega)
  have hmid : (decEntry k q e0).volume.toNat < e0.volume.toNat := by
    unfold decEntry
    rw [if_pos hk]
    simp only
    omega
  omega

theorem le_volNat_of_mem {book : List Entry} {e : Entry} (he : e ∈ book) :
    e.volume.toNat ≤ volNat book := by
  obtain ⟨l1, l2, rfl⟩ := List.append_of_mem he
  rw [volNat_append, volNat_cons]
  omega

/-- Facts about the recorded trade's quantity relative to the chosen pair. -/
theorem trade_qty_facts {p : Entry × Entry} (h1 : 0 < p.1.volume) (h2 : 0 < p.2.volume) :
    1 ≤ (mkTrade p.1 p.2).volume ∧ (mkTrade p.1 p.2).volume ≤ p.1.volume ∧
      (mkTrade p.1 p.2).volume ≤ p.2.volume := by
  simp only [mkTrade_volume]
  omega

/-- Each iteration strictly decreases the total (positive-part) volume when
identity tuples are unique. -/
theorem step_totalVol_lt {bids asks b' a' : List Entry} {t : Trade}
    (hnb : (bids.map keyOf).Nodup) (hna : (asks.map keyOf).Nodup)
    (h : stepArb bids asks = some (b', a', t)) :
    totalVol b' a' < totalVol bids asks := by
  obtain ⟨hb', ha', p, hp, ht⟩ := step_nodup_spec hnb hna h
  obtain ⟨hpa, hpb, hv1, hv2, -⟩ := step_pair_facts hp
  obtain ⟨hq1, hqa, hqb⟩ := trade_qty_facts hv1 hv2
  rw [← ht] at hq1 hqa hqb
  have hkb : keyOf p.1 = buyKey t := by rw [ht, mkTrade_buyKey]
  have hks : keyOf p.2 = sellKey t := by rw [ht, mkTrade_sellKey]
  have hlt : volNat a' < volNat asks := by
    rw [ha']
    exact volNat_map_dec_lt hpa hkb hq1 hqa
  have hle : volNat b' ≤ volNat bids := by
    rw [hb']
    exact volNat_map_dec_le bids _ (by omega)
  unfold totalVol
  omega

/-- `update_volume` preserves the key list, hence uniqueness of keys, on both
sides of an iteration. -/
theorem step_keys {bids asks b' a' : List Entry} {t : Trade}
    (h : stepArb bids asks = some (b', a', t)) :
    b'.map keyOf = bids.map keyOf ∧ a'.map keyOf = asks.map keyOf := by
  obtain ⟨hb, ha, -⟩ := step_some_spec h
  exact ⟨hb ▸ update_volume_map_keyOf bids _ _ _ _,
    ha ▸ update_volume_map_keyOf asks _ _ _ _⟩

/-- With unique identity tuples, fuel equal to the total initial volume is
enough: the loop reaches its exit condition, and the number of executed trades
is bounded by that volume. -/
theorem arbLoop_terminates {fuel : Nat} {bids asks : List Entry}
    (hnb : (bids.map keyOf).Nodup) (hna : (asks.map keyOf).Nodup)
    (hf : totalVol bids asks ≤ fuel) :
    ∃ r, arbLoop fuel bids asks = some r ∧ r.2.2.length ≤ totalVol bids asks := by
  induction fuel generalizing bids asks with
  | zero =>
    cases hs : stepArb bids asks with
    | none => exact ⟨(bids, asks, []), by simp [arbLoop, hs], by simp⟩
    | some s =>
      obtain ⟨b', a', t⟩ := s
      obtain ⟨-, -, p, hp, -⟩ := step_some_spec hs
      obtain ⟨hpa, -, hv1, -, -⟩ := step_pair_facts hp
      exfalso
      have h1 : 1 ≤ volNat asks := le_trans (by omega) (le_volNat_of_mem hpa)
      unfold totalVol at hf
      omega
  | succ fuel ih =>
    cases hs : stepArb bids asks with
    | none => exact ⟨(bids, asks, []), by simp [arbLoop, hs], by simp⟩
    | some s =>
      obtain ⟨b', a', t⟩ := s
      obtain ⟨hkb, hka⟩ := step_keys hs
      have hlt := step_totalVol_lt hnb hna hs
      obtain ⟨r', hr', hlen'⟩ := ih (hkb ▸ hnb) (hka ▸ hna) (by omega)
      refine ⟨(r'.1, r'.2.1, t :: r'.2.2), ?_, ?_⟩
      · simp [arbLoop, hs, hr']
      · simp only [List.length_cons]
        omega

/-! ## Non-negativity, exhaustion of one side, and the entry-count bound -/

/-- With unique tuples and non-negative volumes, volumes stay non-negative
across one iteration. -/
theorem step_nonneg {bids asks b' a' : List Entry} {t : Trade}
    (hnb : (bids.map keyOf).Nodup) (hna : (asks.map keyOf).Nodup)
    (hb0 : ∀ e ∈ bids, 0 ≤ e.volume) (ha0 : ∀ e ∈ asks, 0 ≤ e.volume)
    (h : stepArb bids asks = some (b', a', t)) :
    (∀ e ∈ b', 0 ≤ e.volume) ∧ (∀ e ∈ a', 0 ≤ e.volume) := by
  obtain ⟨hb', ha', p, hp, ht⟩ := step_nodup_spec hnb hna h
  obtain ⟨hpa, hpb, hv1, hv2, -⟩ := step_pair_facts hp
  obtain ⟨hq1, hqa, hqb⟩ := trade_qty_facts hv1 hv2
  rw [← ht] at hq1 hqa hqb
  have hkb : keyOf p.1 = buyKey t := by rw [ht, mkTrade_buyKey]
  have hks : keyOf p.2 = sellKey t := by rw [ht, mkTrade_sellKey]
  constructor
  · rw [hb']
    intro e he
    obtain ⟨e0, he0, rfl⟩ := List.mem_map.1 he
    unfold decEntry
    by_cases hk : keyOf e0 = sellKey t
    · rw [if_pos hk]
      have : e0 = p.2 := List.inj_on_of_nodup_map hnb he0 hpb (by rw [hk, hks])
      subst this
      simp only
      omega
    · rw [if_neg hk]
      exact hb0 e0 he0
  · rw [ha']
    intro e he
    obtain ⟨e0, he0, rfl⟩ := List.mem_map.1 he
    unfold decEntry
    by_cases hk : keyOf e0 = buyKey t
    · rw [if_pos hk]
      have : e0 = p.1 := List.inj_on_of_nodup_map hna he0 hpa (by rw [hk, hkb])
      subst this
      simp only
      omega
    · rw [if_neg hk]
      exact ha0 e0 he0

/-- With unique tuples, each executed trade drives the volume of at least one
of its two matched entries to exactly `0`. -/
theorem step_zero_hit {bids asks b' a' : List Entry} {t : Trade}
    (hnb : (bids.map keyOf).Nodup) (hna : (asks.map keyOf).Nodup)
    (h : stepArb bids asks = some (b', a', t)) :
    (∃ e ∈ a', keyOf e = buyKey t ∧ e.volume = 0) ∨
    (∃ e ∈ b', keyOf e = sellKey t ∧ e.volume = 0) := by
  obtain ⟨hb', ha', p, hp, ht⟩ := step_nodup_spec hnb hna h
  obtain ⟨hpa, hpb, hv1, hv2, -⟩ := step_pair_facts hp
  have hkb : keyOf p.1 = buyKey t := by rw [ht, mkTrade_buyKey]
  have hks : keyOf p.2 = sellKey t := by rw [ht, mkTrade_sellKey]
  have hqmin : t.volume = min p.1.volume p.2.volume := by rw [ht, mkTrade_volume]
  by_cases hmin : p.1.volume ≤ p.2.volume
  · left
    refine ⟨decEntry (buyKey t) t.volume p.1, ?_, ?_, ?_⟩
    · rw [ha']; exact List.mem_map.2 ⟨p.1, hpa, rfl⟩
    · rw [keyOf_decEntry, hkb]
    · unfold decEntry
      rw [if_pos hkb]
      simp only
      omega
  · right
    refine ⟨decEntry (sellKey t) t.volume p.2, ?_, ?_, ?_⟩
    · rw [hb']; exact List.mem_map.2 ⟨p.2, hpb, rfl⟩
    · rw [keyOf_decEntry, hks]
    · unfold decEntry
      rw [if_pos hks]
      simp only
      omega

/-- Number of live (positive-volume) entries in a book. -/
def posCount (book : List Entry) : Nat := book.countP (fun e => decide (0 < e.volume))

theorem posCount_append (a b : List Entry) :
    posCount (a ++ b) = posCount a + posCount b := by
  simp [posCount, List.countP_append]

theorem posCount_cons (e : Entry) (l : List Entry) :
    posCount (e :: l) = (if 0 < e.volume then 1 else 0) + posCount l := by
  by_cases h : 0 < e.volume
  · rw [if_pos h]
    simp [posCount, List.countP_cons, decide_eq_true h]
    omega
  · rw [if_neg h]
    simp [posCount, List.countP_cons, decide_eq_false h]

theorem posCount_map_dec_le (book : List Entry) (k : String × ℚ × ℚ) {q : Int}
    (hq : 0 ≤ q) : posCount (book.map (decEntry k q)) ≤ posCount book := by
  unfold posCount
  rw [List.countP_map]
  apply List.countP_mono_left
  intro e he hpe
  simp only [Function.comp_apply, decide_eq_true_eq] at hpe
  apply decide_eq_true
  unfold decEntry at hpe
  by_cases h : keyOf e = k
  · rw [if_pos h] at hpe
    simp only at hpe
    omega
  · rw [if_neg h] at hpe
    exact hpe

theorem posCount_map_dec_lt {book : List Entry} {k : String × ℚ × ℚ} {q : Int}
    {e0 : Entry} (he0 : e0 ∈ book) (hk : keyOf e0 = k) (hv : 0 < e0.volume)
    (hz : e0.volume - q ≤ 0) (hq : 0 ≤ q) :
    posCount (book.map (decEntry k q)) < posCount book := by
  obtain ⟨l1, l2, rfl⟩ := List.append_of_mem he0
  rw [List.map_append, List.map_cons, posCount_append, posCount_append,
    posCount_cons, posCount_cons]
  have h1 : posCount (l1.map (decEntry k q)) ≤ posCount l1 :=
    posCount_map_dec_le l1 k hq
  have h2 : posCount (l2.map (decEntry k q)) ≤ posCount l2 :=
    posCount_map_dec_le l2 k hq
  have hmid1 : ¬ (0 < (decEntry k q e0).volume) := by
    unfold decEntry
    rw [if_pos hk]
    simp only
    omega
  rw [if_neg hmid1, if_pos hv]
  omega

/-- With unique tuples, each iteration strictly decreases the number of live
entries across both books. -/
theorem step_posCount_lt {bids asks b' a' : List Entry} {t : Trade}
    (hnb : (bids.map keyOf).Nodup) (hna : (asks.map keyOf).Nodup)
    (h : stepArb bids asks = some (b', a', t)) :
    posCount b' + posCount a' < posCount bids + posCount asks := by
  obtain ⟨hb', ha', p, hp, ht⟩ := step_nodup_spec hnb hna h
  obtain ⟨hpa, hpb, hv1, hv2, -⟩ := step_pair_facts hp
  have hkb : keyOf p.1 = buyKey t := by rw [ht, mkTrade_buyKey]
  have hks : keyOf p.2 = sellKey t := by rw [ht, mkTrade_sellKey]
  have hqmin : t.volume = min p.1.volume p.2.volume := by rw [ht, mkTrade_volume]
  have hq : (0 : Int) ≤ t.volume := by omega
  by_cases hmin : p.1.volume ≤ p.2.volume
  · have hlt : posCount a' < posCount asks := by
      rw [ha']
      exact posCount_map_dec_lt hpa hkb hv1 (by omega) hq
    have hle : posCount b' ≤ posCount bids := by
      rw [hb']
      exact posCount_map_dec_le bids _ hq
    omega
  · have hlt : posCount b' < posCount bids := by
      rw [hb']
      exact posCount_map_dec_lt hpb hks hv2 (by omega) hq
    have hle : posCount a' ≤ posCount asks := by
      rw [ha']
      exact posCount_map_dec_le asks _ hq
    omega

/-- With unique tuples, a completed run executes at most one trade per live
entry: the trade count is bounded by the number of entries that start with
positive volume. -/
theorem arbLoop_count {fuel : Nat} {bids asks : List Entry}
    {r : List Entry × List Entry × List Trade}
    (hnb : (bids.map keyOf).Nodup) (hna : (asks.map keyOf).Nodup)
    (h : arbLoop fuel bids asks = some r) :
    r.2.2.length ≤ posCount bids + posCount asks := by
  induction fuel generalizing bids asks r with
  | zero =>
    cases hs : stepArb bids asks with
    | none =>
      simp only [arbLoop, hs] at h
      obtain rfl : (bids, asks, ([] : List Trade)) = r := by injection h
      simp
    | some s =>
      simp only [arbLoop, hs] at h
      cases h
  | succ fuel ih =>
    cases hs : stepArb bids asks with
    | none =>
      simp only [arbLoop, hs] at h
      obtain rfl : (bids, asks, ([] : List Trade)) = r := by injection h
      simp
    | some s =>
      obtain ⟨b', a', t0⟩ := s
      simp only [arbLoop, hs, Option.map_eq_some'] at h
      obtain ⟨x, hx, rfl⟩ := h
      obtain ⟨hkb, hka⟩ := step_keys hs
      have hlt := step_posCount_lt hnb hna hs
      have := ih (hkb ▸ hnb) (hka ▸ hna) hx
      simp only [List.length_cons]
      omega

/-! ## Volume conservation: consumed quantities per identity tuple -/

/-- Total quantity consumed on the buy (ask) side, per identity tuple, across
a list of trades. -/
def consumedBuy (ts : List Trade) (k : String × ℚ × ℚ) : Int :=
  ((ts.filter (fun t => decide (buyKey t = k))).map Trade.volume).sum

/-- Total quantity consumed on the sell (bid) side, per identity tuple, across
a list of trades. -/
def consumedSell (ts : List Trade) (k : String × ℚ × ℚ) : Int :=
  ((ts.filter (fun t => decide (sellKey t = k))).map Trade.volume).sum

theorem consumedBuy_nil (k : String × ℚ × ℚ) : consumedBuy [] k = 0 := rfl

theorem consumedSell_nil (k : String × ℚ × ℚ) : consumedSell [] k = 0 := rfl

theorem consumedBuy_cons (t : Trade) (ts : List Trade) (k : String × ℚ × ℚ) :
    consumedBuy (t :: ts) k = (if buyKey t = k then t.volume else 0) + consumedBuy ts k := by
  unfold consumedBuy
  rw [List.filter_cons]
  by_cases h : buyKey t = k
  · rw [decide_eq_true h, if_pos rfl, if_pos h, List.map_cons, List.sum_cons]
  · rw [decide_eq_false h, if_neg Bool.false_ne_true, if_neg h, zero_add]

theorem consumedSell_cons (t : Trade) (ts : List Trade) (k : String × ℚ × ℚ) :
    consumedSell (t :: ts) k = (if sellKey t = k then t.volume else 0) + consumedSell ts k := by
  unfold consumedSell
  rw [List.filter_cons]
  by_cases h : sellKey t = k
  · rw [decide_eq_true h, if_pos rfl, if_pos h, List.map_cons, List.sum_cons]
  · rw [decide_eq_false h, if_neg Bool.false_ne_true, if_neg h, zero_add]

theorem entry_with_volume_congr {e : Entry} {v w : Int} (h : v = w) :
    ({ e with volume := v } : Entry) = { e with volume := w } := by rw [h]

theorem entry_set_volume_self {e : Entry} {v : Int} (h : v = e.volume) :
    ({ e with volume := v } : Entry) = e := by
  cases e
  cases h
  rfl

theorem map_congr_fun {α β : Type} {f g : α → β} (l : List α) (h : ∀ a, f a = g a) :
    l.map f = l.map g := by
  have hf : f = g := funext h
  rw [hf]

/-- Composing the one-step decrement with a later per-key decrement gives a
single per-key decrement with summed quantity. -/
theorem dec_map_comp (k0 : String × ℚ × ℚ) (q : Int) (g : String × ℚ × ℚ → Int)
    (e : Entry) :
    ({ (decEntry k0 q e) with
        volume := (decEntry k0 q e).volume - g (keyOf (decEntry k0 q e)) } : Entry) =
    { e with volume := e.volume - ((if k0 = keyOf e then q else 0) + g (keyOf e)) } := by
  rw [keyOf_decEntry]
  obtain ⟨ex, fe, pr, vo⟩ := e
  unfold decEntry
  by_cases h : keyOf ⟨ex, fe, pr, vo⟩ = k0
  · rw [if_pos h, if_pos h.symm]
    show Entry.mk ex fe pr (vo - q - g (keyOf ⟨ex, fe, pr, vo⟩)) = _
    simp only [Entry.mk.injEq, true_and]
    omega
  · rw [if_neg h, if_neg (fun hc => h hc.symm), zero_add]

/-- With unique identity tuples, the final books of a completed run are the
initial books with, per entry, exactly the total consumed quantity on its side
subtracted from its volume. -/
theorem arbLoop_books_eq {fuel : Nat} {bids asks : List Entry}
    {r : List Entry × List Entry × List Trade}
    (hnb : (bids.map keyOf).Nodup) (hna : (asks.map keyOf).Nodup)
    (h : arbLoop fuel bids asks = some r) :
    r.1 = bids.map (fun e => { e with volume := e.volume - consumedSell r.2.2 (keyOf e) }) ∧
    r.2.1 = asks.map (fun e => { e with volume := e.volume - consumedBuy r.2.2 (keyOf e) }) := by
  induction fuel generalizing bids asks r with
  | zero =>
    cases hs : stepArb bids asks with
    | none =>
      simp only [arbLoop, hs] at h
      obtain rfl : (bids, asks, ([] : List Trade)) = r := by injection h
      constructor
      · exact (map_eq_self_of_mem fun e he =>
          entry_set_volume_self (by simp [consumedSell_nil])).symm
      · exact (map_eq_self_of_mem fun e he =>
          entry_set_volume_self (by simp [consumedBuy_nil])).symm
    | some s =>
      simp only [arbLoop, hs] at h
      cases h
  | succ fuel ih =>
    cases hs : stepArb bids asks with
    | none =>
      simp only [arbLoop, hs] at h
      obtain rfl : (bids, asks, ([] : List Trade)) = r := by injection h
      constructor
      · exact (map_eq_self_of_mem fun e he =>
          entry_set_volume_self (by simp [consumedSell_nil])).symm
      · exact (map_eq_self_of_mem fun e he =>
          entry_set_volume_self (by simp [consumedBuy_nil])).symm
    | some s =>
      obtain ⟨b', a', t0⟩ := s
      simp only [arbLoop, hs, Option.map_eq_some'] at h
      obtain ⟨x, hx, rfl⟩ := h
      obtain ⟨hb', ha', -⟩ := step_nodup_spec hnb hna hs
      obtain ⟨hkb, hka⟩ := step_keys hs
      obtain ⟨ih1, ih2⟩ := ih (hkb ▸ hnb) (hka ▸ hna) hx
      constructor
      · rw [ih1, hb', List.map_map]
        apply map_congr_fun
        intro e
        simp only [Function.comp_apply]
        rw [dec_map_comp (sellKey t0) t0.volume (consumedSell x.2.2) e]
        exact entry_with_volume_congr (by rw [consumedSell_cons])
      · rw [ih2, ha', List.map_map]
        apply map_congr_fun
        intro e
        simp only [Function.comp_apply]
        rw [dec_map_comp (buyKey t0) t0.volume (consumedBuy x.2.2) e]
        exact entry_with_volume_congr (by rw [consumedBuy_cons])

/-- With unique tuples and non-negative initial volumes, volumes stay
non-negative across a completed run. -/
theorem arbLoop_nonneg {fuel : Nat} {bids asks : List Entry}
    {r : List Entry × List Entry × List Trade}
    (hnb : (bids.map keyOf).Nodup) (hna : (asks.map keyOf).Nodup)
    (hb0 : ∀ e ∈ bids, 0 ≤ e.volume) (ha0 : ∀ e ∈ asks, 0 ≤ e.volume)
    (h : arbLoop fuel bids asks = some r) :
    (∀ e ∈ r.1, 0 ≤ e.volume) ∧ (∀ e ∈ r.2.1, 0 ≤ e.volume) := by
  induction fuel generalizing bids asks r with
  | zero =>
    cases hs : stepArb bids asks with
    | none =>
      simp only [arbLoop, hs] at h
      obtain rfl : (bids, asks, ([] : List Trade)) = r := by injection h
      exact ⟨hb0, ha0⟩
    | some s =>
      simp only [arbLoop, hs] at h
      cases h
  | succ fuel ih =>
    cases hs : stepArb bids asks with
    | none =>
      simp only [arbLoop, hs] at h
      obtain rfl : (bids, asks, ([] : List Trade)) = r := by injection h
      exact ⟨hb0, ha0⟩
    | some s =>
      obtain ⟨b', a', t0⟩ := s
      simp only [arbLoop, hs, Option.map_eq_some'] at h
      obtain ⟨x, hx, rfl⟩ := h
      obtain ⟨hkb, hka⟩ := step_keys hs
      obtain ⟨hb0', ha0'⟩ := step_nonneg hnb hna hb0 ha0 hs
      have hres := ih (hkb ▸ hnb) (hka ▸ hna) hb0' ha0' hx
      exact ⟨hres.1, hres.2⟩

/-! ## Non-increasing profit across the run -/

theorem keyOf_fields {a b : Entry} (h : keyOf a = keyOf b) :
    a.exchange = b.exchange ∧ a.fee = b.fee ∧ a.price = b.price := by
  simp only [keyOf, Prod.ext_iff] at h
  exact ⟨h.1, h.2.1, h.2.2⟩

/-- `profit_per_unit` depends only on the identity tuples of the two quotes. -/
theorem ppu_congr {a a' b b' : Entry} (ha : keyOf a' = keyOf a) (hb : keyOf b' = keyOf b) :
    profit_per_unit a' b' = profit_per_unit a b := by
  obtain ⟨-, hf1, hp1⟩ := keyOf_fields ha
  obtain ⟨-, hf2, hp2⟩ := keyOf_fields hb
  simp [profit_per_unit, effective_cost, effective_proceed, hf1, hp1, hf2, hp2]

theorem forall₂_mem_right {R : Entry → Entry → Prop} {l l' : List Entry}
    (h : List.Forall₂ R l l') : ∀ x ∈ l', ∃ y ∈ l, R y x := by
  induction h with
  | nil => simp
  | cons hr hrest ih =>
    intro x hx
    rcases List.mem_cons.1 hx with rfl | hx
    · exact ⟨_, List.mem_cons_self _ _, hr⟩
    · obtain ⟨y, hy, hry⟩ := ih x hx
      exact ⟨y, List.mem_cons_of_mem _ hy, hry⟩

/-- After executing the best trade, every remaining candidate pair's profit is
bounded by the executed trade's profit (volumes only shrank and the scan was
maximal). -/
theorem step_cand_bound {bids asks b' a' : List Entry} {t : Trade}
    (h : stepArb bids asks = some (b', a', t)) :
    ∀ q ∈ candPairs b' a', ppuP q ≤ t.profit_per_unit := by
  obtain ⟨hf1, hf2⟩ := step_frame h
  obtain ⟨-, -, p, hp, ht, -, hmax⟩ := step_some_spec h
  intro q hq
  obtain ⟨hqa, hqb, hqv1, hqv2, hqne⟩ := mem_candPairs.1 hq
  obtain ⟨ya, hya, hra⟩ := forall₂_mem_right hf2 q.1 hqa
  obtain ⟨yb, hyb, hrb⟩ := forall₂_mem_right hf1 q.2 hqb
  have hexa : q.1.exchange = ya.exchange := (keyOf_fields hra.1).1
  have hexb : q.2.exchange = yb.exchange := (keyOf_fields hrb.1).1
  have hys : (ya, yb) ∈ candPairs bids asks := by
    apply mem_candPairs.2
    refine ⟨hya, hyb, ?_, ?_, ?_⟩
    · show 0 < ya.volume
      have := hra.2; omega
    · show 0 < yb.volume
      have := hrb.2; omega
    · simp only
      rw [← hexa, ← hexb]
      exact hqne
  have hcong : ppuP q = ppuP (ya, yb) := ppu_congr hra.1 hrb.1
  have htp : t.profit_per_unit = ppuP p := by rw [ht, mkTrade_ppu]; rfl
  rw [hcong, htp]
  exact hmax (ya, yb) hys

/-- A completed run's trade list has non-increasing `profit_per_unit`, and all
its trades are bounded by any upper bound on the initial candidate profits. -/
theorem arbLoop_chain {fuel : Nat} {bids asks : List Entry}
    {r : List Entry × List Entry × List Trade}
    (h : arbLoop fuel bids asks = some r) :
    List.Chain' (fun t1 t2 => t2.profit_per_unit ≤ t1.profit_per_unit) r.2.2 ∧
    ∀ m, (∀ q ∈ candPairs bids asks, ppuP q ≤ m) →
      ∀ t ∈ r.2.2, t.profit_per_unit ≤ m := by
  induction fuel generalizing bids asks r with
  | zero =>
    cases hs : stepArb bids asks with
    | none =>
      simp only [arbLoop, hs] at h
      obtain rfl : (bids, asks, ([] : List Trade)) = r := by injection h
      exact ⟨List.chain'_nil, by simp⟩
    | some s =>
      simp only [arbLoop, hs] at h
      cases h
  | succ fuel ih =>
    cases hs : stepArb bids asks with
    | none =>
      simp only [arbLoop, hs] at h
      obtain rfl : (bids, asks, ([] : List Trade)) = r := by injection h
      exact ⟨List.chain'_nil, by simp⟩
    | some s =>
      obtain ⟨b', a', t0⟩ := s
      simp only [arbLoop, hs, Option.map_eq_some'] at h
      obtain ⟨x, hx, rfl⟩ := h
      have hbound := step_cand_bound hs
      obtain ⟨ihc, ihm⟩ := ih hx
      have ht0 : ∀ m, (∀ q ∈ candPairs bids asks, ppuP q ≤ m) →
          t0.profit_per_unit ≤ m := by
        intro m hm
        obtain ⟨-, -, p, hp, ht, -, -⟩ := step_some_spec hs
        have : t0.profit_per_unit = ppuP p := by rw [ht, mkTrade_ppu]; rfl
        rw [this]
        exact hm p hp
      constructor
      · apply List.chain'_cons'.2
        refine ⟨?_, ihc⟩
        intro y hy
        exact ihm t0.profit_per_unit hbound y (List.mem_of_mem_head? hy)
      · intro m hm t ht
        rcases List.mem_cons.1 ht with rfl | ht
        · exact ht0 m hm
        · exact ihm m (fun q hq => le_trans (hbound q hq) (ht0 m hm)) t ht

/-! ## The no-opportunity state -/

theorem stepArb_none_of_no_profit {bids asks : List Entry}
    (h : ∀ q ∈ candPairs bids asks, ppuP q ≤ 0) : stepArb bids asks = none := by
  unfold stepArb
  rw [selectBest_none_of_no_profit h]

theorem arbLoop_no_profit {fuel : Nat} {bids asks : List Entry}
    (h : ∀ q ∈ candPairs bids asks, ppuP q ≤ 0) :
    arbLoop fuel bids asks = some (bids, asks, []) := by
  cases fuel with
  | zero => simp [arbLoop, stepArb_none_of_no_profit h]
  | succ fuel => simp [arbLoop, stepArb_none_of_no_profit h]

/-! ## Concrete runs -/

/-- A one-bid sample book: venue "b", no fee, price 2, volume 2. -/
def bidsW : List Entry := [⟨"b", 0, 2, 2⟩]

/-- A one-ask sample book: venue "a", no fee, price 1, volume 3. -/
def asksW : List Entry := [⟨"a", 0, 1, 3⟩]

/-- The single trade the sample run executes. -/
def tradeW : Trade := ⟨"a", "b", 0, 0, 1, 2, 2, 1, 2⟩

/-- The sample run's full result: mutated books and trade list. -/
def resultW : List Entry × List Entry × List Trade :=
  ([⟨"b", 0, 2, 0⟩], [⟨"a", 0, 1, 1⟩], [tradeW])

theorem selectBestW : (selectBest bidsW asksW).1 = some tradeW := by
  norm_num +decide [selectBest, mkTrade, profit_per_unit, effective_cost,
    effective_proceed, bidsW, asksW, tradeW]

theorem runW : find_best_arbitrage bidsW asksW = some resultW := by
  norm_num +decide [find_best_arbitrage, totalVol, volNat, arbLoop, stepArb,
    selectBest, update_volume, mkTrade, profit_per_unit, effective_cost,
    effective_proceed, bidsW, asksW, tradeW, resultW]

/-- A bid book with no profitable counterparty in `asksN`. -/
def bidsN : List Entry := [⟨"b", 0, 1, 2⟩]

/-- An ask book priced above every bid of `bidsN`. -/
def asksN : List Entry := [⟨"a", 0, 2, 3⟩]

/-! ## A duplicate-tuple input on which the loop never exits

Both books hold two entries with the same (venue, fee, price) tuple. The scan
selects the still-live second entries, but `update_volume` decrements the
first matching entry of each book — the exhausted duplicate — so the selected
entries never shrink and the `while (true)` loop runs forever. -/

/-- Bid book with duplicated identity tuple ("ex2", 0, 2). -/
def badBids : List Entry := [⟨"ex2", 0, 2, 1⟩, ⟨"ex2", 0, 2, 7⟩]

/-- Ask book with duplicated identity tuple ("ex1", 0, 1). -/
def badAsks : List Entry := [⟨"ex1", 0, 1, 1⟩, ⟨"ex1", 0, 1, 5⟩]

/-- Once the first duplicates are exhausted (volumes `v, w ≤ 0`), an iteration
selects the live second entries but decrements the first ones. -/
theorem badStep (v w : Int) (hv : v ≤ 0) (hw : w ≤ 0) :
    stepArb [⟨"ex2", 0, 2, v⟩, ⟨"ex2", 0, 2, 7⟩]
            [⟨"ex1", 0, 1, w⟩, ⟨"ex1", 0, 1, 5⟩] =
    some ([⟨"ex2", 0, 2, v - 5⟩, ⟨"ex2", 0, 2, 7⟩],
          [⟨"ex1", 0, 1, w - 5⟩, ⟨"ex1", 0, 1, 5⟩],
          ⟨"ex1", "ex2", 0, 0, 1, 2, 5, 1, 5⟩) := by
  norm_num +decide [stepArb, selectBest, update_volume, mkTrade, profit_per_unit,
    effective_cost, effective_proceed, hv, hw]

/-- From any state with the first duplicates exhausted, no amount of fuel
reaches the loop's exit condition. -/
theorem badLoop : ∀ (n : Nat) (v w : Int), v ≤ 0 → w ≤ 0 →
    arbLoop n [⟨"ex2", 0, 2, v⟩, ⟨"ex2", 0, 2, 7⟩]
              [⟨"ex1", 0, 1, w⟩, ⟨"ex1", 0, 1, 5⟩] = none := by
  intro n
  induction n with
  | zero =>
    intro v w hv hw
    simp [arbLoop, badStep v w hv hw]
  | succ n ih =>
    intro v w hv hw
    simp only [arbLoop, badStep v w hv hw]
    rw [ih (v - 5) (w - 5) (by omega) (by omega)]
    rfl

/-- The first iteration on `badBids`/`badAsks` exhausts both first duplicates. -/
theorem badFirst : stepArb badBids badAsks =
    some ([⟨"ex2", 0, 2, 0⟩, ⟨"ex2", 0, 2, 7⟩],
          [⟨"ex1", 0, 1, 0⟩, ⟨"ex1", 0, 1, 5⟩],
          ⟨"ex1", "ex2", 0, 0, 1, 2, 1, 1, 1⟩) := by
  norm_num +decide [stepArb, selectBest, update_volume, mkTrade, profit_per_unit,
    effective_cost, effective_proceed, badBids, badAsks]

theorem forall₂_keys {l l' : List Entry} (h : List.Forall₂ frameRel l l') :
    l'.map keyOf = l.map keyOf := by
  induction h with
  | nil => rfl
  | cons hr hrest ih => rw [List.map_cons, List.map_cons, hr.1, ih]

/-! ## The claims -/

/-- C1: In each iteration of the matching loop, the selection scan considers
exactly the (ask, bid) pairs with `ask.volume > 0`, `bid.volume > 0` and
differing venues — `candPairs` lists them in enumeration order — and the
returned `best_trade` is built from the first such pair whose
`profit_per_unit` is strictly greatest and strictly greater than `0`:
strictly above every candidate before it (ties do not override) and at or
above every candidate after it; its quantity is
`min(ask.volume, bid.volume)` of the chosen pair. -/
theorem claim_C1 {bids asks : List Entry} {t : Trade}
    (h : (selectBest bids asks).1 = some t) :
    (∀ q : Entry × Entry, q ∈ candPairs bids asks ↔
      (q.1 ∈ asks ∧ q.2 ∈ bids ∧ 0 < q.1.volume ∧ 0 < q.2.volume ∧
        q.1.exchange ≠ q.2.exchange)) ∧
    ∃ l1 p l2, candPairs bids asks = l1 ++ p :: l2 ∧
      t = mkTrade p.1 p.2 ∧
      0 < profit_per_unit p.1 p.2 ∧
      t.profit_per_unit = profit_per_unit p.1 p.2 ∧
      t.volume = min p.1.volume p.2.volume ∧
      (∀ q ∈ l1, profit_per_unit q.1 q.2 < profit_per_unit p.1 p.2) ∧
      (∀ q ∈ l2, profit_per_unit q.1 q.2 ≤ profit_per_unit p.1 p.2) := by
  refine ⟨fun q => mem_candPairs, ?_⟩
  rw [selectBest_eq] at h
  rcases consider_foldl_spec (candPairs bids asks) with ⟨heq, -⟩ |
    ⟨l1, p, l2, heq, hsplit, hpos, h1, h2⟩
  · rw [heq] at h; cases h
  · rw [heq] at h
    obtain rfl : mkTrade p.1 p.2 = t := by injection h
    exact ⟨l1, p, l2, hsplit, rfl, hpos, rfl, rfl, h1, h2⟩

/-- C1 witness: the sample scan selects `tradeW`. -/
theorem claim_C1_witness :
    (selectBest bidsW asksW).1 = some tradeW ∧
    ((∀ q : Entry × Entry, q ∈ candPairs bidsW asksW ↔
      (q.1 ∈ asksW ∧ q.2 ∈ bidsW ∧ 0 < q.1.volume ∧ 0 < q.2.volume ∧
        q.1.exchange ≠ q.2.exchange)) ∧
    ∃ l1 p l2, candPairs bidsW asksW = l1 ++ p :: l2 ∧
      tradeW = mkTrade p.1 p.2 ∧
      0 < profit_per_unit p.1 p.2 ∧
      tradeW.profit_per_unit = profit_per_unit p.1 p.2 ∧
      tradeW.volume = min p.1.volume p.2.volume ∧
      (∀ q ∈ l1, profit_per_unit q.1 q.2 < profit_per_unit p.1 p.2) ∧
      (∀ q ∈ l2, profit_per_unit q.1 q.2 ≤ profit_per_unit p.1 p.2)) :=
  ⟨selectBestW, claim_C1 selectBestW⟩

/-- C2: Every trade in the sequence returned by `find_best_arbitrage` has
strictly positive `profit_per_unit`. -/
theorem claim_C2 {bids asks : List Entry} {r : List Entry × List Entry × List Trade}
    (h : find_best_arbitrage bids asks = some r) :
    ∀ t ∈ r.2.2, 0 < t.profit_per_unit := by
  intro t ht
  obtain ⟨b, a, b', a', hstep⟩ :=
    arbLoop_trades_step (show arbLoop (totalVol bids asks) bids asks = some r from h) t ht
  exact (step_trade_facts hstep).1

/-- C2 witness: the sample run's one trade has profit `1 > 0`. -/
theorem claim_C2_witness :
    find_best_arbitrage bidsW asksW = some resultW ∧ 0 < tradeW.profit_per_unit :=
  ⟨runW, claim_C2 runW tradeW (by simp [resultW])⟩

/-- C3 counterexample: the claim quantifies over every finite input, but on
`badBids`/`badAsks` (duplicate (venue, fee, price) tuples within a book, all
volumes positive integers) the loop never reaches its exit condition — no
fuel makes `arbLoop` return — so `find_best_arbitrage` does not terminate
with a trade list on this input. -/
theorem claim_C3_counterexample : ¬ ∃ n, (arbLoop n badBids badAsks).isSome := by
  rintro ⟨n, hn⟩
  cases n with
  | zero =>
    have hz : arbLoop 0 badBids badAsks = none := by simp [arbLoop, badFirst]
    rw [hz] at hn
    simp at hn
  | succ n =>
    have hz : arbLoop (n + 1) badBids badAsks = none := by
      simp only [arbLoop, badFirst]
      rw [badLoop n 0 0 (by omega) (by omega)]
      rfl
    rw [hz] at hn
    simp at hn

/-- C3 (amended): for every finite input whose (venue, fee, price) tuples are
unique within each collection, `find_best_arbitrage` terminates — the loop
reaches its exit condition within fuel equal to the total initial volume —
returning a trade list of length at most the sum of all initial volumes
across both collections, and each iteration strictly reduces the total
(positive-part) volume, i.e. the volume of at least one matched entry. -/
theorem claim_C3 {bids asks : List Entry}
    (hnb : (bids.map keyOf).Nodup) (hna : (asks.map keyOf).Nodup) :
    (∃ r, find_best_arbitrage bids asks = some r ∧
      r.2.2.length ≤ totalVol bids asks) ∧
    (∀ b a b' a' t, (b.map keyOf).Nodup → (a.map keyOf).Nodup →
      stepArb b a = some (b', a', t) → totalVol b' a' < totalVol b a) := by
  refine ⟨arbLoop_terminates hnb hna (le_refl _), ?_⟩
  intro b a b' a' t hb ha hs
  exact step_totalVol_lt hb ha hs

/-- C3 witness: the sample books have unique tuples; the run returns and its
trade list is within the volume bound. -/
theorem claim_C3_witness :
    (bidsW.map keyOf).Nodup ∧ (asksW.map keyOf).Nodup ∧
    (∃ r, find_best_arbitrage bidsW asksW = some r ∧
      r.2.2.length ≤ totalVol bidsW asksW) :=
  ⟨by decide, by decide, (claim_C3 (by decide) (by decide)).1⟩

/-- C4: with unique (venue, fee, price) tuples per collection and non-negative
initial volumes, each final book equals the initial book with, per entry, the
total quantity consumed on that entry's side subtracted; the consumed total
never exceeds the original volume, and no final volume is negative. -/
theorem claim_C4 {bids asks b' a' : List Entry} {ts : List Trade}
    (hnb : (bids.map keyOf).Nodup) (hna : (asks.map keyOf).Nodup)
    (hb0 : ∀ e ∈ bids, 0 ≤ e.volume) (ha0 : ∀ e ∈ asks, 0 ≤ e.volume)
    (h : find_best_arbitrage bids asks = some (b', a', ts)) :
    b' = bids.map (fun e => { e with volume := e.volume - consumedSell ts (keyOf e) }) ∧
    a' = asks.map (fun e => { e with volume := e.volume - consumedBuy ts (keyOf e) }) ∧
    (∀ e ∈ bids, consumedSell ts (keyOf e) ≤ e.volume) ∧
    (∀ e ∈ asks, consumedBuy ts (keyOf e) ≤ e.volume) ∧
    (∀ e ∈ b', 0 ≤ e.volume) ∧ (∀ e ∈ a', 0 ≤ e.volume) := by
  have h' : arbLoop (totalVol bids asks) bids asks = some (b', a', ts) := h
  obtain ⟨e1, e2⟩ := arbLoop_books_eq hnb hna h'
  obtain ⟨n1, n2⟩ := arbLoop_nonneg hnb hna hb0 ha0 h'
  refine ⟨e1, e2, ?_, ?_, n1, n2⟩
  · intro e he
    have hm : ({ e with volume := e.volume - consumedSell ts (keyOf e) } : Entry) ∈ b' := by
      rw [show b' = _ from e1]
      exact List.mem_map.2 ⟨e, he, rfl⟩
    have h2 : 0 ≤ e.volume - consumedSell ts (keyOf e) := n1 _ hm
    omega
  · intro e he
    have hm : ({ e with volume := e.volume - consumedBuy ts (keyOf e) } : Entry) ∈ a' := by
      rw [show a' = _ from e2]
      exact List.mem_map.2 ⟨e, he, rfl⟩
    have h2 : 0 ≤ e.volume - consumedBuy ts (keyOf e) := n2 _ hm
    omega

/-- C4 witness: the conservation equations on the sample run. -/
theorem claim_C4_witness :
    find_best_arbitrage bidsW asksW = some resultW ∧
    (resultW.1 = bidsW.map
      (fun e => { e with volume := e.volume - consumedSell resultW.2.2 (keyOf e) }) ∧
    resultW.2.1 = asksW.map
      (fun e => { e with volume := e.volume - consumedBuy resultW.2.2 (keyOf e) }) ∧
    (∀ e ∈ bidsW, consumedSell resultW.2.2 (keyOf e) ≤ e.volume) ∧
    (∀ e ∈ asksW, consumedBuy resultW.2.2 (keyOf e) ≤ e.volume) ∧
    (∀ e ∈ resultW.1, 0 ≤ e.volume) ∧ (∀ e ∈ resultW.2.1, 0 ≤ e.volume)) :=
  ⟨runW, claim_C4 (by decide) (by decide) (by decide) (by decide) runW⟩

/-- C5: in the returned trade sequence, consecutive trades'
`profit_per_unit` values are non-increasing. -/
theorem claim_C5 {bids asks : List Entry} {r : List Entry × List Entry × List Trade}
    (h : find_best_arbitrage bids asks = some r) :
    List.Chain' (fun t1 t2 => t2.profit_per_unit ≤ t1.profit_per_unit) r.2.2 :=
  (arbLoop_chain (show arbLoop (totalVol bids asks) bids asks = some r from h)).1

/-- C5 witness: the sample run's trade list is non-increasing. -/
theorem claim_C5_witness :
    find_best_arbitrage bidsW asksW = some resultW ∧
    List.Chain' (fun t1 t2 => t2.profit_per_unit ≤ t1.profit_per_unit) resultW.2.2 :=
  ⟨runW, claim_C5 runW⟩

/-- C6: for every candidate pair the scan computes
`effective_cost = ask.price * (1 + ask.fee)`,
`effective_proceed = bid.price * (1 - bid.fee)`,
`profit_per_unit = effective_proceed - effective_cost` and
`net_profit = profit_per_unit * quantity`, exactly over the embedded
numbers; and every trade of a completed run records exactly these values. -/
theorem claim_C6 :
    (∀ ask bid : Entry,
      effective_cost ask = ask.price * (1 + ask.fee) ∧
      effective_proceed bid = bid.price * (1 - bid.fee) ∧
      (mkTrade ask bid).profit_per_unit = effective_proceed bid - effective_cost ask ∧
      (mkTrade ask bid).net_profit =
        (mkTrade ask bid).profit_per_unit * ((mkTrade ask bid).volume : ℚ)) ∧
    (∀ bids asks r, find_best_arbitrage bids asks = some r →
      ∀ t ∈ r.2.2,
        t.profit_per_unit =
          t.sell_price * (1 - t.sell_fee) - t.buy_price * (1 + t.buy_fee) ∧
        t.net_profit = t.profit_per_unit * (t.volume : ℚ)) := by
  constructor
  · intro ask bid
    exact ⟨rfl, rfl, rfl, rfl⟩
  · intro bids asks r h t ht
    obtain ⟨b, a, b', a', hstep⟩ :=
      arbLoop_trades_step (show arbLoop (totalVol bids asks) bids asks = some r from h) t ht
    obtain ⟨-, -, -, hf, hn⟩ := step_trade_facts hstep
    exact ⟨hf, hn⟩

/-- C7: every returned trade matches an ask and a bid from different venues. -/
theorem claim_C7 {bids asks : List Entry} {r : List Entry × List Entry × List Trade}
    (h : find_best_arbitrage bids asks = some r) :
    ∀ t ∈ r.2.2, t.buy_exchange ≠ t.sell_exchange := by
  intro t ht
  obtain ⟨b, a, b', a', hstep⟩ :=
    arbLoop_trades_step (show arbLoop (totalVol bids asks) bids asks = some r from h) t ht
  exact (step_trade_facts hstep).2.2.1

/-- C7 witness: the sample trade buys at "a" and sells at "b". -/
theorem claim_C7_witness :
    find_best_arbitrage bidsW asksW = some resultW ∧
    tradeW.buy_exchange ≠ tradeW.sell_exchange :=
  ⟨runW, claim_C7 runW tradeW (by simp [resultW])⟩

/-- C8: a completed run never adds or removes entries and never changes any
entry's venue, fee or price (the key lists are preserved positionally), and
every entry's volume only ever decreases. -/
theorem claim_C8 {fuel : Nat} {bids asks : List Entry}
    {r : List Entry × List Entry × List Trade}
    (h : arbLoop fuel bids asks = some r) :
    (r.1.map keyOf = bids.map keyOf ∧ r.2.1.map keyOf = asks.map keyOf) ∧
    List.Forall₂ frameRel bids r.1 ∧ List.Forall₂ frameRel asks r.2.1 := by
  obtain ⟨f1, f2⟩ := arbLoop_frame h
  exact ⟨⟨forall₂_keys f1, forall₂_keys f2⟩, f1, f2⟩

/-- C8 witness: the frame facts on the sample run. -/
theorem claim_C8_witness :
    arbLoop (totalVol bidsW asksW) bidsW asksW = some resultW ∧
    ((resultW.1.map keyOf = bidsW.map keyOf ∧
      resultW.2.1.map keyOf = asksW.map keyOf) ∧
    List.Forall₂ frameRel bidsW resultW.1 ∧
    List.Forall₂ frameRel asksW resultW.2.1) :=
  ⟨runW, claim_C8 runW⟩

/-- C9: when no (ask, bid) pair with positive volumes and differing venues is
profitable, `find_best_arbitrage` returns an empty trade list and leaves both
collections unchanged. -/
theorem claim_C9 {bids asks : List Entry}
    (h : ∀ a ∈ asks, ∀ b ∈ bids, 0 < a.volume → 0 < b.volume →
      a.exchange ≠ b.exchange → profit_per_unit a b ≤ 0) :
    find_best_arbitrage bids asks = some (bids, asks, []) := by
  apply arbLoop_no_profit
  intro q hq
  obtain ⟨hqa, hqb, hv1, hv2, hne⟩ := mem_candPairs.1 hq
  exact h q.1 hqa q.2 hqb hv1 hv2 hne

/-- C9 witness: asks priced above all bids yield no trade and unchanged books. -/
theorem claim_C9_witness :
    (∀ a ∈ asksN, ∀ b ∈ bidsN, 0 < a.volume → 0 < b.volume →
      a.exchange ≠ b.exchange → profit_per_unit a b ≤ 0) ∧
    find_best_arbitrage bidsN asksN = some (bidsN, asksN, []) := by
  have hyp : ∀ a ∈ asksN, ∀ b ∈ bidsN, 0 < a.volume → 0 < b.volume →
      a.exchange ≠ b.exchange → profit_per_unit a b ≤ 0 := by
    intro a ha b hb h1 h2 h3
    simp only [asksN, List.mem_singleton] at ha
    simp only [bidsN, List.mem_singleton] at hb
    subst ha
    subst hb
    norm_num [profit_per_unit, effective_cost, effective_proceed]
  exact ⟨hyp, claim_C9 hyp⟩

/-- C10: with unique (venue, fee, price) tuples per collection and
non-negative integer volumes, every returned trade has quantity at least 1,
each iteration drives at least one matched entry's volume to exactly 0, and
the number of returned trades is at most the number of entries in the two
collections combined. -/
theorem claim_C10 {bids asks b' a' : List Entry} {ts : List Trade}
    (hnb : (bids.map keyOf).Nodup) (hna : (asks.map keyOf).Nodup)
    (_hb0 : ∀ e ∈ bids, 0 ≤ e.volume) (_ha0 : ∀ e ∈ asks, 0 ≤ e.volume)
    (h : find_best_arbitrage bids asks = some (b', a', ts)) :
    (∀ t ∈ ts, 1 ≤ t.volume) ∧
    ts.length ≤ bids.length + asks.length ∧
    (∀ b a b2 a2 t, (b.map keyOf).Nodup → (a.map keyOf).Nodup →
      stepArb b a = some (b2, a2, t) →
      (∃ e ∈ a2, keyOf e = buyKey t ∧ e.volume = 0) ∨
      (∃ e ∈ b2, keyOf e = sellKey t ∧ e.volume = 0)) := by
  have h' : arbLoop (totalVol bids asks) bids asks = some (b', a', ts) := h
  refine ⟨?_, ?_, ?_⟩
  · intro t ht
    obtain ⟨b, a, b2, a2, hstep⟩ := arbLoop_trades_step h' t ht
    exact (step_trade_facts hstep).2.1
  · have hc : ts.length ≤ posCount bids + posCount asks := arbLoop_count hnb hna h'
    have h1 : posCount bids ≤ bids.length := List.countP_le_length _
    have h2 : posCount asks ≤ asks.length := List.countP_le_length _
    omega
  · intro b a b2 a2 t hb ha hs
    exact step_zero_hit hb ha hs

/-- C10 witness: on the sample run the single trade has quantity 2 ≥ 1 and
the trade count 1 is within the entry count 2. -/
theorem claim_C10_witness :
    find_best_arbitrage bidsW asksW = some resultW ∧
    (∀ t ∈ resultW.2.2, 1 ≤ t.volume) ∧
    resultW.2.2.length ≤ bidsW.length + asksW.length :=
  ⟨runW, (claim_C10 (by decide) (by decide) (by decide) (by decide) runW).1,
    (claim_C10 (by decide) (by decide) (by decide) (by decide) runW).2.1⟩

end Arbitrage
